import Mathlib

/-!
Verification of the multi-dimensional histogram engine
(`src/include/boost/histogram/histogram.hpp`) against its specification.

The histogram class orchestrates external collaborators: a tuple of axes
(each mapping a raw value to a bin id) and a flat storage of accumulator
cells.  The `detail` headers (`linearize.hpp`, `axes.hpp`, `common_type.hpp`)
and the storage backends are not part of the sources; where a definition
depends on them it is modelled from the specification, as marked in its
doc comment.  Cells are modelled as rationals (exact arithmetic standing in
for the numeric accumulators), raw coordinate values as integers.
-/

namespace BoostHistogram

/-- Error kinds of the spec's error model (§7): `InvalidArgument` for an
argument-count mismatch or an axes mismatch in compound assignment,
`OutOfRange` for an indexed access outside an axis's valid extended range. -/
inductive HistError where
  | invalidArgument
  | outOfRange
  deriving DecidableEq, Repr

/-- Modelled from the spec: an axis collaborator (§3, §6) — a regular
integer-binning rule with `size` ordinary bins covering the integer domain
`[lo, lo + size)`, plus optional underflow/overflow extra bins.  Extra bins
occupy reserved positions at the end of the axis's bin range: the overflow
bin (if present) at internal position `size`, the underflow bin (if present)
after it.  All fields are layout data, so axis equality ("same bin
boundaries") is structural equality. -/
structure Axis where
  size : Nat
  hasUnderflow : Bool
  hasOverflow : Bool
  lo : Int
  deriving DecidableEq, Repr

/-- Total number of bins of one axis, ordinary plus extra bins. -/
def Axis.total_bin_count (a : Axis) : Nat :=
  a.size + (if a.hasUnderflow then 1 else 0) + (if a.hasOverflow then 1 else 0)

/-- Internal position of the overflow bin: directly after the ordinary bins. -/
def Axis.overflowBin (a : Axis) : Nat := a.size

/-- Internal position of the underflow bin: at the very end of the axis range. -/
def Axis.underflowBin (a : Axis) : Nat :=
  a.size + (if a.hasOverflow then 1 else 0)

/-- Modelled from the spec: the axis's `index(value) -> bin_id` routing used
by fill (§4.2): a value inside the domain lands in its ordinary bin, a value
outside the domain is routed to the underflow/overflow extra bin when that
extra bin exists, and to no bin at all otherwise (the observation is then
dropped by fill; fill raises only for arity mismatches, §4.2). -/
def Axis.route (a : Axis) (v : Int) : Option Nat :=
  if v < a.lo then
    if a.hasUnderflow then some a.underflowBin else none
  else if v < a.lo + a.size then
    some (v - a.lo).toNat
  else
    if a.hasOverflow then some a.overflowBin else none

/-- Modelled from the spec: conversion of one signed `at`-index to the
internal bin id (`detail::at`, absent from the sources).  Ordinary bins are
addressed by their own index, the underflow bin by the sentinel `-1`, the
overflow bin by the index `size`; anything else is outside the axis's valid
extended range (§4.3). -/
def Axis.binFor (a : Axis) (t : Int) : Option Nat :=
  if t = -1 then
    if a.hasUnderflow then some a.underflowBin else none
  else if 0 ≤ t ∧ t < (a.size : Int) then
    some t.toNat
  else if t = (a.size : Int) ∧ a.hasOverflow then
    some a.overflowBin
  else
    none

/-- Modelled from the spec: the mixed-radix (row-major) linearization
(`detail::linearize`, absent from the sources), §4.2:
`offset = ((id_0) * radix_1 + id_1) * radix_2 + id_2 ...`. -/
def linearize (ids radices : List Nat) : Nat :=
  (ids.zip radices).foldl (fun acc p => acc * p.2 + p.1) 0

/-- Decoder of the mixed-radix encoding: recovers the per-axis bin ids from
a linear offset (the first radix is not consumed, mirroring `linearize`). -/
def delinearize : List Nat → Nat → List Nat
  | [], _ => []
  | _ :: rs, n => n / rs.prod :: delinearize rs (n % rs.prod)

/-- The list of radices of an axis tuple: each axis's total bin count. -/
def radicesOf (axes : List Axis) : List Nat :=
  axes.map Axis.total_bin_count

/-- Modelled from the spec: `detail::bincount` (absent from the sources) —
the product over all axes of the total bin count (§3: storage size always
equals this product). -/
def bincount (axes : List Axis) : Nat :=
  (radicesOf axes).prod

/-- Modelled from the spec: `detail::axes_equal` (absent from the sources) —
structural equality of two axis tuples: same rank and pairwise equal bin
layouts (§4.1).  With the concrete axis model this is plain equality. -/
def axes_equal (x y : List Axis) : Bool :=
  decide (x = y)

/-- Per-axis routing of a full coordinate tuple (used by fill): every
coordinate is passed to its axis in order; succeeds iff every axis routes
its value to a bin. -/
def routeIds : List Axis → List Int → Option (List Nat)
  | [], [] => some []
  | a :: as_, v :: vs =>
    match a.route v, routeIds as_ vs with
    | some b, some bs => some (b :: bs)
    | _, _ => none
  | _, _ => none

/-- Per-axis conversion of a full `at`-index tuple to internal bin ids
(used by `at`); succeeds iff every index is inside its axis's valid
extended range. -/
def toBins : List Axis → List Int → Option (List Nat)
  | [], [] => some []
  | a :: as_, t :: ts =>
    match a.binFor t, toBins as_ ts with
    | some b, some bs => some (b :: bs)
    | _, _ => none
  | _, _ => none

/-- The histogram: owns one axis tuple and one flat storage of accumulator
cells (`histogram.hpp`, members `axes_` and `storage_`). -/
structure Histogram where
  axes : List Axis
  storage : List ℚ
  deriving DecidableEq, Repr

/-- `rank()`: number of axes. -/
def Histogram.rank (h : Histogram) : Nat := h.axes.length

/-- `size()`: total number of cells, including extra bins. -/
def Histogram.size (h : Histogram) : Nat := h.storage.length

/-- Storage collaborator's `resize_and_reset(n)` (§6): `n` default cells. -/
def storageReset (n : Nat) : List ℚ := List.replicate n 0

/-- The constructor `histogram(A&& a, S&& s)`: stores the axis tuple and
immediately resets the storage to `bincount(axes_)` cells, discarding the
supplied storage contents (`storage_.reset(detail::bincount(axes_))`).
Zero axes is a construction-time failure (`static_assert` on the axis tuple
size), modelled as `none`. -/
def Histogram.make (axes : List Axis) (_s : List ℚ) : Option Histogram :=
  if axes.isEmpty then none
  else some ⟨axes, storageReset (bincount axes)⟩

/-- `reset()`: resets every cell to its default value, keeping the current
storage size (`storage_.reset(storage_.size())`). -/
def Histogram.reset (h : Histogram) : Histogram :=
  ⟨h.axes, storageReset h.storage.length⟩

/-- A cell's "observe one unit" update at a linear offset: the cell at
position `i` is incremented, every other cell is untouched. -/
def bump (s : List ℚ) (i : Nat) : List ℚ :=
  s.set i (s.getD i 0 + 1)

/-- Modelled from the spec: `detail::fill` (absent from the sources), plain
coordinates without weight/sample markers (§4.2): check the argument count
against the rank (mismatch raises InvalidArgument), route each coordinate
through its axis, combine the bin ids with the mixed-radix encoding and
run the addressed cell's "observe one unit" update.  A coordinate that an
axis routes to no bin drops the observation without error. -/
def Histogram.fill (h : Histogram) (coords : List Int) :
    Histogram × Option HistError :=
  if coords.length ≠ h.axes.length then (h, some .invalidArgument)
  else
    match routeIds h.axes coords with
    | none => (h, none)
    | some bs => (⟨h.axes, bump h.storage (linearize bs (radicesOf h.axes))⟩, none)

/-- `at(indices...)`: modelled from the spec for the part in `detail::at`
(absent from the sources): an argument count different from the rank raises
InvalidArgument, an index outside an axis's valid extended range raises
OutOfRange (§4.3); otherwise the cell at the mixed-radix offset is read. -/
def Histogram.cellAt (h : Histogram) (ts : List Int) : Except HistError ℚ :=
  if ts.length ≠ h.axes.length then .error .invalidArgument
  else
    match toBins h.axes ts with
    | none => .error .outOfRange
    | some bs => .ok (h.storage.getD (linearize bs (radicesOf h.axes)) 0)

/-- Storage collaborator's elementwise addition (§6): cellwise `+`. -/
def storageAdd (s t : List ℚ) : List ℚ :=
  List.zipWith (· + ·) s t

/-- `operator+=`: raises InvalidArgument when the axis tuples are not
structurally equal, leaving the receiver unchanged; otherwise accumulates
the right-hand storage elementwise.  The returned pair is the receiver's
state after the call and the raised error, if any. -/
def Histogram.addAssign (a b : Histogram) : Histogram × Option HistError :=
  if axes_equal a.axes b.axes then
    (⟨a.axes, storageAdd a.storage b.storage⟩, none)
  else
    (a, some .invalidArgument)

/-- `operator*=` / binary `operator*`: scales every cell by the scalar.
The binary form copies the operand into a histogram with storage promoted
for floating scaling (here: the cells are already rationals) and compounds
the scale into the copy, leaving the operand untouched. -/
def Histogram.mulScalar (h : Histogram) (x : ℚ) : Histogram :=
  ⟨h.axes, h.storage.map (· * x)⟩

/-- Binary `operator/`: multiplication by the reciprocal (`h * (1.0 / x)`). -/
def Histogram.divScalar (h : Histogram) (x : ℚ) : Histogram :=
  h.mulScalar (1 / x)

/-- Binary `operator+`: constructs the result from the left operand (axes
and cells copied, with the common axis/storage type) and compound-adds the
right operand into it.  Both operands are read-only. -/
def Histogram.add (a b : Histogram) : Histogram × Option HistError :=
  Histogram.addAssign ⟨a.axes, a.storage⟩ b

/-- `operator==`: structural equality of the axis tuples and equality of
every storage cell. -/
def Histogram.heq (a b : Histogram) : Bool :=
  axes_equal a.axes b.axes && decide (a.storage = b.storage)

instance : DecidableEq (Except HistError ℚ) := fun a b =>
  match a, b with
  | .ok x, .ok y =>
    if h : x = y then isTrue (by rw [h]) else isFalse (fun hc => h (Except.ok.inj hc))
  | .ok _, .error _ => isFalse (fun hc => Except.noConfusion hc)
  | .error _, .ok _ => isFalse (fun hc => Except.noConfusion hc)
  | .error e, .error f =>
    if h : e = f then isTrue (by rw [h]) else isFalse (fun hc => h (Except.error.inj hc))

/-- The cell value at a linear offset (collaborator's indexed read). -/
def cellVal (h : Histogram) (i : Nat) : ℚ :=
  h.storage.getD i 0

/-- The spec's histogram invariant (§3) together with the rank constraint:
at least one axis, and the storage size equals the product over all axes of
the total bin count. -/
def Histogram.wf (h : Histogram) : Prop :=
  h.axes ≠ [] ∧ h.storage.length = bincount h.axes

instance (h : Histogram) : Decidable h.wf := by
  unfold Histogram.wf; infer_instance

/-- Validity of a tuple of per-axis bin ids against a radix list: same
length, and every id strictly below its radix. -/
def validIds (ids radices : List Nat) : Bool :=
  ids.length == radices.length &&
    (ids.zip radices).all fun p => decide (p.1 < p.2)

/-- The worked example of the spec (§8): a first axis with 3 ordinary
integer bins on `[0, 3)` plus underflow and overflow, a second with
2 ordinary bins on `[0, 2)` plus underflow and overflow. -/
def exAxes : List Axis :=
  [⟨3, true, true, 0⟩, ⟨2, true, true, 0⟩]

/-- The example histogram, freshly constructed: 5 * 4 = 20 zero cells. -/
def exHist : Histogram :=
  ⟨exAxes, storageReset 20⟩

/-! ### Mixed-radix linearization: bijectivity -/

theorem linFoldl_acc (l : List (Nat × Nat)) (acc : Nat) :
    l.foldl (fun acc p => acc * p.2 + p.1) acc
      = acc * (l.map Prod.snd).prod + l.foldl (fun acc p => acc * p.2 + p.1) 0 := by
  induction l generalizing acc with
  | nil => simp
  | cons p t ih =>
    simp only [List.foldl_cons, List.map_cons, List.prod_cons, Nat.zero_mul,
      Nat.zero_add]
    rw [ih (acc * p.2 + p.1), ih p.1]
    ring

theorem linearize_nil : linearize [] [] = 0 := rfl

theorem linearize_cons (i r : Nat) (is_ rs : List Nat) (hlen : is_.length = rs.length) :
    linearize (i :: is_) (r :: rs) = i * rs.prod + linearize is_ rs := by
  unfold linearize
  simp only [List.zip_cons_cons, List.foldl_cons, Nat.zero_mul, Nat.zero_add]
  rw [linFoldl_acc]
  rw [List.map_snd_zip is_ rs (le_of_eq hlen.symm)]

theorem linearize_lt (ids rs : List Nat) (hlen : ids.length = rs.length)
    (hv : ∀ p ∈ ids.zip rs, p.1 < p.2) : linearize ids rs < rs.prod := by
  induction ids generalizing rs with
  | nil =>
    cases rs with
    | nil => simp [linearize]
    | cons r rs => simp at hlen
  | cons i is_ ih =>
    cases rs with
    | nil => simp at hlen
    | cons r rs =>
      have hlen' : is_.length = rs.length := by simpa using hlen
      rw [linearize_cons i r is_ rs hlen']
      have hi : i < r := hv (i, r) (by simp)
      have hrest := ih rs hlen' (fun p hp => hv p (by simp [hp]))
      have h1 : i * rs.prod + linearize is_ rs < (i + 1) * rs.prod := by
        have := Nat.add_lt_add_left hrest (i * rs.prod)
        calc i * rs.prod + linearize is_ rs < i * rs.prod + rs.prod := this
          _ = (i + 1) * rs.prod := by ring
      calc i * rs.prod + linearize is_ rs < (i + 1) * rs.prod := h1
        _ ≤ r * rs.prod := Nat.mul_le_mul_right _ hi
        _ ≤ (r :: rs).prod := by simp [List.prod_cons]

theorem radix_pos_of_valid (ids rs : List Nat) (hlen : ids.length = rs.length)
    (hv : ∀ p ∈ ids.zip rs, p.1 < p.2) : ∀ r ∈ rs, 0 < r := by
  induction ids generalizing rs with
  | nil =>
    cases rs with
    | nil => intro r hr; simp at hr
    | cons r rs => simp at hlen
  | cons i is_ ih =>
    cases rs with
    | nil => simp at hlen
    | cons r rs =>
      have hlen' : is_.length = rs.length := by simpa using hlen
      intro r' hr'
      rcases List.mem_cons.mp hr' with h | h
      · subst h
        exact Nat.lt_of_le_of_lt (Nat.zero_le i) (hv (i, r') (by simp))
      · exact ih rs hlen' (fun p hp => hv p (by simp [hp])) r' h

theorem delin_lin (ids rs : List Nat) (hlen : ids.length = rs.length)
    (hv : ∀ p ∈ ids.zip rs, p.1 < p.2) :
    delinearize rs (linearize ids rs) = ids := by
  induction ids generalizing rs with
  | nil =>
    cases rs with
    | nil => simp [delinearize, linearize]
    | cons r rs => simp at hlen
  | cons i is_ ih =>
    cases rs with
    | nil => simp at hlen
    | cons r rs =>
      have hlen' : is_.length = rs.length := by simpa using hlen
      have hvt : ∀ p ∈ is_.zip rs, p.1 < p.2 := fun p hp => hv p (by simp [hp])
      have hP : 0 < rs.prod :=
        List.prod_pos (radix_pos_of_valid is_ rs hlen' hvt)
      have hlt : linearize is_ rs < rs.prod := linearize_lt is_ rs hlen' hvt
      rw [linearize_cons i r is_ rs hlen']
      show (i * rs.prod + linearize is_ rs) / rs.prod
          :: delinearize rs ((i * rs.prod + linearize is_ rs) % rs.prod) = i :: is_
      have hdiv : (i * rs.prod + linearize is_ rs) / rs.prod = i := by
        rw [mul_comm, Nat.mul_add_div hP, Nat.div_eq_of_lt hlt]
        omega
      have hmod : (i * rs.prod + linearize is_ rs) % rs.prod = linearize is_ rs := by
        rw [mul_comm, Nat.mul_add_mod, Nat.mod_eq_of_lt hlt]
      rw [hdiv, hmod, ih rs hlen' hvt]

theorem lin_delin (rs : List Nat) (n : Nat) (hpos : ∀ r ∈ rs, 0 < r)
    (hn : n < rs.prod) :
    (delinearize rs n).length = rs.length ∧
      (∀ p ∈ (delinearize rs n).zip rs, p.1 < p.2) ∧
      linearize (delinearize rs n) rs = n := by
  induction rs generalizing n with
  | nil =>
    have : n = 0 := by simpa using hn
    subst this
    exact ⟨rfl, by intro p hp; simp [delinearize] at hp, rfl⟩
  | cons r rs ih =>
    have hP : 0 < rs.prod :=
      List.prod_pos (fun x hx => hpos x (List.mem_cons_of_mem r hx))
    have hdn : n % rs.prod < rs.prod := Nat.mod_lt _ hP
    obtain ⟨hl, hv, he⟩ :=
      ih (n % rs.prod) (fun x hx => hpos x (List.mem_cons_of_mem r hx)) hdn
    have hd0 : n / rs.prod < r := by
      rw [Nat.div_lt_iff_lt_mul hP]
      calc n < (r :: rs).prod := hn
        _ = r * rs.prod := by simp [List.prod_cons]
    have hshape : delinearize (r :: rs) n
        = n / rs.prod :: delinearize rs (n % rs.prod) := rfl
    refine ⟨by simp [hshape, hl], ?_, ?_⟩
    · intro p hp
      rw [hshape, List.zip_cons_cons] at hp
      rcases List.mem_cons.mp hp with h | h
      · subst h; exact hd0
      · exact hv p h
    · rw [hshape, linearize_cons _ _ _ _ hl, he, mul_comm]
      exact Nat.div_add_mod n rs.prod

/-- C2: for a histogram with axes of total bin counts `r0, ..., rk` (each
at least 1, the axis contract of §6), the mixed-radix linearization used by
fill and `at` maps every in-range tuple of per-axis bin ids to a linear
offset below `r0 * ... * rk`, decoding recovers exactly that tuple, and
every offset below the product decodes to exactly one in-range tuple which
re-encodes to it: the encoding is a bijection. -/
theorem linearize_bijective (axes : List Axis) (ids : List Nat) (n : Nat)
    (hpos : ∀ a ∈ axes, 0 < a.total_bin_count)
    (hids : validIds ids (radicesOf axes) = true)
    (hn : n < bincount axes) :
    linearize ids (radicesOf axes) < bincount axes ∧
      delinearize (radicesOf axes) (linearize ids (radicesOf axes)) = ids ∧
      validIds (delinearize (radicesOf axes) n) (radicesOf axes) = true ∧
      linearize (delinearize (radicesOf axes) n) (radicesOf axes) = n := by
  have hrpos : ∀ r ∈ radicesOf axes, 0 < r := by
    intro r hr
    rcases List.mem_map.mp hr with ⟨a, ha, rfl⟩
    exact hpos a ha
  obtain ⟨hlen, hv⟩ : ids.length = (radicesOf axes).length ∧
      ∀ p ∈ ids.zip (radicesOf axes), p.1 < p.2 := by
    unfold validIds at hids
    rw [Bool.and_eq_true] at hids
    refine ⟨by simpa using hids.1, ?_⟩
    intro p hp
    have := List.all_eq_true.mp hids.2 p hp
    exact of_decide_eq_true this
  obtain ⟨hl, hv', he⟩ := lin_delin (radicesOf axes) n hrpos hn
  refine ⟨linearize_lt ids (radicesOf axes) hlen hv,
    delin_lin ids (radicesOf axes) hlen hv, ?_, he⟩
  unfold validIds
  rw [Bool.and_eq_true]
  constructor
  · simp [hl]
  · exact List.all_eq_true.mpr (fun p hp => decide_eq_true (hv' p hp))

/-- Witness for `linearize_bijective`: the spec's worked example axes
(total bin counts 5 and 4), the bin-id tuple `(1, 0)` and the offset `7`. -/
theorem linearize_bijective_witness :
    ((∀ a ∈ exAxes, 0 < a.total_bin_count) ∧
        validIds [1, 0] (radicesOf exAxes) = true ∧ 7 < bincount exAxes) ∧
      (linearize [1, 0] (radicesOf exAxes) < bincount exAxes ∧
        delinearize (radicesOf exAxes)
          (linearize [1, 0] (radicesOf exAxes)) = [1, 0] ∧
        validIds (delinearize (radicesOf exAxes) 7) (radicesOf exAxes) = true ∧
        linearize (delinearize (radicesOf exAxes) 7) (radicesOf exAxes) = 7) :=
  ⟨⟨by decide, by decide, by decide⟩,
    linearize_bijective exAxes [1, 0] 7 (by decide) (by decide) (by decide)⟩

/-! ### Routing bounds and fill/at consistency -/

theorem size_le_total (a : Axis) : a.size ≤ a.total_bin_count := by
  unfold Axis.total_bin_count
  split <;> split <;> omega

theorem underflowBin_lt (a : Axis) (hu : a.hasUnderflow = true) :
    a.underflowBin < a.total_bin_count := by
  unfold Axis.underflowBin Axis.total_bin_count
  cases ho : a.hasOverflow <;> simp [hu, ho]

theorem overflowBin_lt (a : Axis) (ho : a.hasOverflow = true) :
    a.overflowBin < a.total_bin_count := by
  unfold Axis.overflowBin Axis.total_bin_count
  cases hu : a.hasUnderflow <;> simp [hu, ho]
  omega

theorem route_lt (a : Axis) (v : Int) (b : Nat) (h : a.route v = some b) :
    b < a.total_bin_count := by
  unfold Axis.route at h
  split at h
  · split at h
    · rename_i hu
      simp only [Option.some.injEq] at h
      subst h
      exact underflowBin_lt a hu
    · simp at h
  · split at h
    · rename_i hlo hhi
      simp only [Option.some.injEq] at h
      subst h
      have hb : (v - a.lo).toNat < a.size := by omega
      exact Nat.lt_of_lt_of_le hb (size_le_total a)
    · split at h
      · rename_i ho
        simp only [Option.some.injEq] at h
        subst h
        exact overflowBin_lt a ho
      · simp at h

theorem binFor_lt (a : Axis) (t : Int) (b : Nat) (h : a.binFor t = some b) :
    b < a.total_bin_count := by
  unfold Axis.binFor at h
  split at h
  · split at h
    · rename_i hu
      simp only [Option.some.injEq] at h
      subst h
      exact underflowBin_lt a hu
    · simp at h
  · split at h
    · rename_i hrange
      simp only [Option.some.injEq] at h
      subst h
      have hb : t.toNat < a.size := by omega
      exact Nat.lt_of_lt_of_le hb (size_le_total a)
    · split at h
      · rename_i hov
        simp only [Option.some.injEq] at h
        subst h
        exact overflowBin_lt a hov.2
      · simp at h

theorem routeIds_spec (axes : List Axis) (coords : List Int) (bs : List Nat)
    (h : routeIds axes coords = some bs) :
    coords.length = axes.length ∧ bs.length = (radicesOf axes).length ∧
      ∀ p ∈ bs.zip (radicesOf axes), p.1 < p.2 := by
  induction axes generalizing coords bs with
  | nil =>
    cases coords with
    | nil =>
      simp only [routeIds, Option.some.injEq] at h
      subst h
      exact ⟨rfl, rfl, by intro p hp; simp [radicesOf] at hp⟩
    | cons v vs => simp [routeIds] at h
  | cons a as_ ih =>
    cases coords with
    | nil => simp [routeIds] at h
    | cons v vs =>
      unfold routeIds at h
      cases h1 : a.route v with
      | none => rw [h1] at h; simp at h
      | some b =>
        cases h2 : routeIds as_ vs with
        | none => rw [h1, h2] at h; simp at h
        | some bs' =>
          rw [h1, h2] at h
          simp only [Option.some.injEq] at h
          subst h
          obtain ⟨hc, hl, hv⟩ := ih vs bs' h2
          refine ⟨by simp [hc], by simp [radicesOf] at hl ⊢; exact hl, ?_⟩
          intro p hp
          simp only [radicesOf, List.map_cons, List.zip_cons_cons] at hp
          rcases List.mem_cons.mp hp with hp | hp
          · subst hp
            exact route_lt a v b h1
          · exact hv p (by simpa [radicesOf] using hp)

theorem toBins_spec (axes : List Axis) (ts : List Int) (bs : List Nat)
    (h : toBins axes ts = some bs) :
    ts.length = axes.length ∧ bs.length = (radicesOf axes).length ∧
      ∀ p ∈ bs.zip (radicesOf axes), p.1 < p.2 := by
  induction axes generalizing ts bs with
  | nil =>
    cases ts with
    | nil =>
      simp only [toBins, Option.some.injEq] at h
      subst h
      exact ⟨rfl, rfl, by intro p hp; simp [radicesOf] at hp⟩
    | cons t ts' => simp [toBins] at h
  | cons a as_ ih =>
    cases ts with
    | nil => simp [toBins] at h
    | cons t ts' =>
      unfold toBins at h
      cases h1 : a.binFor t with
      | none => rw [h1] at h; simp at h
      | some b =>
        cases h2 : toBins as_ ts' with
        | none => rw [h1, h2] at h; simp at h
        | some bs' =>
          rw [h1, h2] at h
          simp only [Option.some.injEq] at h
          subst h
          obtain ⟨hc, hl, hv⟩ := ih ts' bs' h2
          refine ⟨by simp [hc], by simp [radicesOf] at hl ⊢; exact hl, ?_⟩
          intro p hp
          simp only [radicesOf, List.map_cons, List.zip_cons_cons] at hp
          rcases List.mem_cons.mp hp with hp | hp
          · subst hp
            exact binFor_lt a t b h1
          · exact hv p (by simpa [radicesOf] using hp)

theorem getD_set_self (s : List ℚ) (i : Nat) (x : ℚ) (hi : i < s.length) :
    (s.set i x).getD i 0 = x := by
  induction s generalizing i with
  | nil => simp at hi
  | cons a t ih =>
    cases i with
    | zero => rfl
    | succ j =>
      have : (a :: t).set (j + 1) x = a :: t.set j x := rfl
      rw [this, List.getD_cons_succ]
      exact ih j (by simpa using hi)

theorem getD_set_ne (s : List ℚ) (i j : Nat) (x : ℚ) (hne : i ≠ j) :
    (s.set i x).getD j 0 = s.getD j 0 := by
  induction s generalizing i j with
  | nil => rfl
  | cons a t ih =>
    cases i with
    | zero =>
      cases j with
      | zero => exact absurd rfl hne
      | succ j' => rfl
    | succ i' =>
      cases j with
      | zero => rfl
      | succ j' =>
        have : (a :: t).set (i' + 1) x = a :: t.set i' x := rfl
        rw [this, List.getD_cons_succ, List.getD_cons_succ]
        exact ih i' j' (fun hc => hne (by rw [hc]))

theorem cellAt_some (h : Histogram) (ts : List Int) (bs : List Nat)
    (hlen : ts.length = h.axes.length)
    (hts : toBins h.axes ts = some bs) :
    h.cellAt ts
      = Except.ok (h.storage.getD (linearize bs (radicesOf h.axes)) 0) := by
  unfold Histogram.cellAt
  rw [if_neg (by omega), hts]

/-- C1: filling a histogram with coordinates that route to the bin-id tuple
`bs` leaves one additional observation in exactly the cell addressed by
`bs`: reading it back through `at` (with indices converting to the same bin
ids) yields the previous value plus one, and every other cell, addressed by
indices converting to a different bin-id tuple, is unchanged.  The fill
itself raises no error. -/
theorem fill_at_consistency (h : Histogram) (coords : List Int)
    (bs bs' : List Nat) (ts ts' : List Int) (q : ℚ)
    (hwf : h.wf)
    (hroute : routeIds h.axes coords = some bs)
    (hts : toBins h.axes ts = some bs)
    (hq : h.cellAt ts = Except.ok q)
    (hts' : toBins h.axes ts' = some bs')
    (hne : bs' ≠ bs) :
    (h.fill coords).2 = none ∧
      ((h.fill coords).1).cellAt ts = Except.ok (q + 1) ∧
      ((h.fill coords).1).cellAt ts' = h.cellAt ts' := by
  obtain ⟨hclen, hblen, hbv⟩ := routeIds_spec h.axes coords bs hroute
  obtain ⟨htlen, _, _⟩ := toBins_spec h.axes ts bs hts
  obtain ⟨ht'len, hb'len, hb'v⟩ := toBins_spec h.axes ts' bs' hts'
  have hfill : h.fill coords
      = (⟨h.axes, bump h.storage (linearize bs (radicesOf h.axes))⟩, none) := by
    unfold Histogram.fill
    rw [if_neg (by omega), hroute]
  have hidx : linearize bs (radicesOf h.axes) < h.storage.length := by
    rw [hwf.2]
    exact linearize_lt bs (radicesOf h.axes) hblen hbv
  have hqval : q = h.storage.getD (linearize bs (radicesOf h.axes)) 0 := by
    rw [cellAt_some h ts bs htlen hts] at hq
    exact (Except.ok.inj hq).symm
  refine ⟨by rw [hfill], ?_, ?_⟩
  · rw [hfill,
      cellAt_some ⟨h.axes, bump h.storage (linearize bs (radicesOf h.axes))⟩
        ts bs htlen hts]
    show Except.ok ((bump h.storage (linearize bs (radicesOf h.axes))).getD
      (linearize bs (radicesOf h.axes)) 0) = Except.ok (q + 1)
    unfold bump
    rw [getD_set_self _ _ _ hidx, hqval]
  · have hne' : linearize bs (radicesOf h.axes)
        ≠ linearize bs' (radicesOf h.axes) := by
      intro heq
      apply hne
      have h1 := delin_lin bs (radicesOf h.axes) hblen hbv
      have h2 := delin_lin bs' (radicesOf h.axes) hb'len hb'v
      rw [← h1, ← h2, heq]
    rw [hfill,
      cellAt_some ⟨h.axes, bump h.storage (linearize bs (radicesOf h.axes))⟩
        ts' bs' ht'len hts',
      cellAt_some h ts' bs' ht'len hts']
    show Except.ok ((bump h.storage (linearize bs (radicesOf h.axes))).getD
      (linearize bs' (radicesOf h.axes)) 0) = _
    unfold bump
    rw [getD_set_ne _ _ _ _ hne']

/-- Witness for `fill_at_consistency`: the spec's end-to-end example — the
fresh 2-axis histogram, filled at coordinate `(1, 0)`; the cell read back at
`at(1, 0)` goes from 0 to 1 and the cell at `at(0, 0)` stays 0. -/
theorem fill_at_consistency_witness :
    (exHist.wf ∧ routeIds exHist.axes [1, 0] = some [1, 0] ∧
        toBins exHist.axes [1, 0] = some [1, 0] ∧
        exHist.cellAt [1, 0] = Except.ok 0 ∧
        toBins exHist.axes [0, 0] = some [0, 0] ∧ [0, 0] ≠ [1, 0]) ∧
      ((exHist.fill [1, 0]).2 = none ∧
        ((exHist.fill [1, 0]).1).cellAt [1, 0] = Except.ok (0 + 1) ∧
        ((exHist.fill [1, 0]).1).cellAt [0, 0] = exHist.cellAt [0, 0]) :=
  ⟨⟨by decide, by decide, by decide, by decide, by decide, by decide⟩,
    fill_at_consistency exHist [1, 0] [1, 0] [0, 0] [1, 0] [0, 0] 0
      (by decide) (by decide) (by decide) (by decide) (by decide) (by decide)⟩

/-! ### Storage algebra and invariant preservation -/

theorem bump_length (s : List ℚ) (i : Nat) : (bump s i).length = s.length := by
  unfold bump
  exact List.length_set s i _

theorem storageAdd_getD (s t : List ℚ) (i : Nat) (hia : i < s.length)
    (hib : i < t.length) :
    (storageAdd s t).getD i 0 = s.getD i 0 + t.getD i 0 := by
  induction s generalizing t i with
  | nil => simp at hia
  | cons a s ih =>
    cases t with
    | nil => simp at hib
    | cons b t =>
      cases i with
      | zero => rfl
      | succ j =>
        have hs : storageAdd (a :: s) (b :: t) = (a + b) :: storageAdd s t := rfl
        rw [hs, List.getD_cons_succ, List.getD_cons_succ, List.getD_cons_succ]
        exact ih t j (by simpa using hia) (by simpa using hib)

theorem storageAdd_comm (s t : List ℚ) : storageAdd s t = storageAdd t s := by
  induction s generalizing t with
  | nil => cases t <;> rfl
  | cons a s ih =>
    cases t with
    | nil => rfl
    | cons b t =>
      show (a + b) :: storageAdd s t = (b + a) :: storageAdd t s
      rw [add_comm, ih t]

theorem storageAdd_assoc (s t u : List ℚ) :
    storageAdd (storageAdd s t) u = storageAdd s (storageAdd t u) := by
  induction s generalizing t u with
  | nil => rfl
  | cons a s ih =>
    cases t with
    | nil => rfl
    | cons b t =>
      cases u with
      | nil => rfl
      | cons c u =>
        show (a + b + c) :: storageAdd (storageAdd s t) u
            = (a + (b + c)) :: storageAdd s (storageAdd t u)
        rw [add_assoc, ih t u]

theorem axes_equal_iff (x y : List Axis) : axes_equal x y = true ↔ x = y := by
  unfold axes_equal
  exact decide_eq_true_iff

theorem fill_wf (h : Histogram) (coords : List Int) (hwf : h.wf) :
    ((h.fill coords).1).wf := by
  unfold Histogram.fill
  split
  · exact hwf
  · cases hr : routeIds h.axes coords with
    | none => exact hwf
    | some bs =>
      refine ⟨hwf.1, ?_⟩
      show (bump h.storage _).length = bincount h.axes
      rw [bump_length]
      exact hwf.2

theorem addAssign_wf (a b : Histogram) (ha : a.wf) (hb : b.wf) :
    ((a.addAssign b).1).wf := by
  unfold Histogram.addAssign
  split
  · rename_i heq
    have hax : a.axes = b.axes := (axes_equal_iff _ _).mp heq
    refine ⟨ha.1, ?_⟩
    show (storageAdd a.storage b.storage).length = bincount a.axes
    unfold storageAdd
    rw [List.length_zipWith, ha.2, hb.2, hax, min_self]
  · exact ha

theorem mulScalar_wf (h : Histogram) (x : ℚ) (hwf : h.wf) : (h.mulScalar x).wf := by
  refine ⟨hwf.1, ?_⟩
  show (h.storage.map _).length = bincount h.axes
  rw [List.length_map]
  exact hwf.2

theorem reset_wf (h : Histogram) (hwf : h.wf) : h.reset.wf := by
  refine ⟨hwf.1, ?_⟩
  show (storageReset h.storage.length).length = bincount h.axes
  unfold storageReset
  rw [List.length_replicate]
  exact hwf.2

/-- C3: every histogram has `rank() ≥ 1` — zero axes is a construction-time
failure — and after construction the storage is immediately reset to
`bincount` cells (the product over all axes of the total bin count),
whatever storage contents were supplied; the size invariant
`storage.size() == product_over_axes(total_bin_count())` holds then and is
preserved by fill, compound and binary addition, scalar multiplication and
division, and reset. -/
theorem histogram_invariant (axes : List Axis) (s0 : List ℚ) (h b : Histogram)
    (coords : List Int) (x : ℚ)
    (hmk : Histogram.make axes s0 = some h) (hbwf : b.wf) :
    Histogram.make [] s0 = none ∧
      1 ≤ h.rank ∧
      h.storage = storageReset (bincount axes) ∧
      h.wf ∧
      ((h.fill coords).1).wf ∧
      ((h.addAssign b).1).wf ∧
      (h.mulScalar x).wf ∧
      (h.divScalar x).wf ∧
      h.reset.wf ∧
      ((h.add b).1).wf := by
  have hmk' : axes ≠ [] ∧ h = ⟨axes, storageReset (bincount axes)⟩ := by
    unfold Histogram.make at hmk
    split at hmk
    · simp at hmk
    · rename_i hne
      refine ⟨by simpa [List.isEmpty_iff] using hne, ?_⟩
      exact (Option.some.inj hmk).symm
  obtain ⟨hax, hh⟩ := hmk'
  have hwf : h.wf := by
    refine ⟨by rw [hh]; exact hax, ?_⟩
    rw [hh]
    show (storageReset (bincount axes)).length = bincount axes
    unfold storageReset
    rw [List.length_replicate]
  have hrank : 1 ≤ h.rank := by
    rw [hh]
    show 1 ≤ axes.length
    exact List.length_pos.mpr hax
  refine ⟨rfl, hrank, by rw [hh], hwf, fill_wf h coords hwf,
    addAssign_wf h b hwf hbwf, mulScalar_wf h x hwf, mulScalar_wf h _ hwf,
    reset_wf h hwf, addAssign_wf h b hwf hbwf⟩

/-- Witness for `histogram_invariant`: the example axes with a nonempty
dummy storage supplied at construction, the example histogram as the
addition partner, the example fill coordinates and the scalar 2. -/
theorem histogram_invariant_witness :
    (Histogram.make exAxes [7] = some exHist ∧ exHist.wf) ∧
      (Histogram.make [] [7] = none ∧
        1 ≤ exHist.rank ∧
        exHist.storage = storageReset (bincount exAxes) ∧
        exHist.wf ∧
        ((exHist.fill [1, 0]).1).wf ∧
        ((exHist.addAssign exHist).1).wf ∧
        (exHist.mulScalar 2).wf ∧
        (exHist.divScalar 2).wf ∧
        exHist.reset.wf ∧
        ((exHist.add exHist).1).wf) :=
  ⟨⟨by decide, by decide⟩,
    histogram_invariant exAxes [7] exHist exHist [1, 0] 2 (by decide) (by decide)⟩

/-! ### Histogram addition -/

theorem addAssign_ok (a b : Histogram) (hax : axes_equal a.axes b.axes = true) :
    a.addAssign b = (⟨a.axes, storageAdd a.storage b.storage⟩, none) := by
  unfold Histogram.addAssign
  rw [if_pos hax]

theorem add_ok (a b : Histogram) (hax : axes_equal a.axes b.axes = true) :
    a.add b = (⟨a.axes, storageAdd a.storage b.storage⟩, none) := by
  show Histogram.addAssign ⟨a.axes, a.storage⟩ b = _
  unfold Histogram.addAssign
  rw [if_pos hax]

/-- C4: compound assignment `a += b` with structurally equal axis tuples
succeeds, accumulates every cell elementwise (`cell_a += cell_b`, the
storage collaborator's elementwise addition) and leaves the axes of `a`
unchanged. -/
theorem addAssign_accumulates (a b : Histogram) (i : Nat)
    (hax : axes_equal a.axes b.axes = true)
    (hia : i < a.storage.length) (hib : i < b.storage.length) :
    (a.addAssign b).2 = none ∧
      ((a.addAssign b).1).axes = a.axes ∧
      cellVal ((a.addAssign b).1) i = cellVal a i + cellVal b i := by
  rw [addAssign_ok a b hax]
  refine ⟨rfl, rfl, ?_⟩
  show (storageAdd a.storage b.storage).getD i 0 = _
  exact storageAdd_getD a.storage b.storage i hia hib

/-- Witness for `addAssign_accumulates`: the example histogram filled once
at `(1, 0)` accumulated into the fresh example histogram; the touched cell
(linear offset 4) ends at `0 + 1`. -/
theorem addAssign_accumulates_witness :
    (axes_equal exHist.axes ((exHist.fill [1, 0]).1).axes = true ∧
        4 < exHist.storage.length ∧
        4 < ((exHist.fill [1, 0]).1).storage.length) ∧
      ((exHist.addAssign ((exHist.fill [1, 0]).1)).2 = none ∧
        ((exHist.addAssign ((exHist.fill [1, 0]).1)).1).axes = exHist.axes ∧
        cellVal ((exHist.addAssign ((exHist.fill [1, 0]).1)).1) 4
          = cellVal exHist 4 + cellVal ((exHist.fill [1, 0]).1) 4) :=
  ⟨⟨by decide, by decide, by decide⟩,
    addAssign_accumulates exHist ((exHist.fill [1, 0]).1) 4
      (by decide) (by decide) (by decide)⟩

/-- C5: compound assignment `a += b` with structurally unequal axis tuples
raises InvalidArgument and leaves `a` completely unchanged: the post-state
is `a` itself, axes and every storage cell included. -/
theorem addAssign_mismatch (a b : Histogram)
    (hax : axes_equal a.axes b.axes = false) :
    (a.addAssign b).1 = a ∧
      (a.addAssign b).2 = some HistError.invalidArgument := by
  unfold Histogram.addAssign
  rw [if_neg (by rw [hax]; exact Bool.false_ne_true)]
  exact ⟨rfl, rfl⟩

/-- Witness for `addAssign_mismatch`: the example histogram against a
1-axis histogram; the receiver is returned untouched with the error. -/
theorem addAssign_mismatch_witness :
    (axes_equal exHist.axes [⟨4, false, false, 0⟩] = false) ∧
      ((exHist.addAssign ⟨[⟨4, false, false, 0⟩], storageReset 4⟩).1 = exHist ∧
        (exHist.addAssign ⟨[⟨4, false, false, 0⟩], storageReset 4⟩).2
          = some HistError.invalidArgument) :=
  ⟨by decide,
    addAssign_mismatch exHist ⟨[⟨4, false, false, 0⟩], storageReset 4⟩ (by decide)⟩

/-- C6: binary `a + b` builds the result from the left operand — its axes
are `a`'s axes — and compound-adds both operands into it, so with equal
axis tuples it succeeds with every result cell equal to `a`'s cell plus
`b`'s cell; the operands, being read-only inputs, are unmodified. -/
theorem add_binary (a b : Histogram) (i : Nat)
    (hax : axes_equal a.axes b.axes = true)
    (hia : i < a.storage.length) (hib : i < b.storage.length) :
    ((a.add b).1).axes = a.axes ∧
      (a.add b).2 = none ∧
      cellVal ((a.add b).1) i = cellVal a i + cellVal b i := by
  rw [add_ok a b hax]
  exact ⟨rfl, rfl, storageAdd_getD a.storage b.storage i hia hib⟩

/-- Witness for `add_binary`: the fresh example histogram plus the example
histogram filled once at `(1, 0)`; cell 4 of the sum is `0 + 1`. -/
theorem add_binary_witness :
    (axes_equal exHist.axes ((exHist.fill [1, 0]).1).axes = true ∧
        4 < exHist.storage.length ∧
        4 < ((exHist.fill [1, 0]).1).storage.length) ∧
      (((exHist.add ((exHist.fill [1, 0]).1)).1).axes = exHist.axes ∧
        (exHist.add ((exHist.fill [1, 0]).1)).2 = none ∧
        cellVal ((exHist.add ((exHist.fill [1, 0]).1)).1) 4
          = cellVal exHist 4 + cellVal ((exHist.fill [1, 0]).1) 4) :=
  ⟨⟨by decide, by decide, by decide⟩,
    add_binary exHist ((exHist.fill [1, 0]).1) 4
      (by decide) (by decide) (by decide)⟩

/-- C7: with pairwise structurally equal axes, binary addition is
commutative and associative under the histogram equality operator
(structurally equal axes and cellwise equal storage):
`(a + b) == (b + a)` and `(a + b) + c == a + (b + c)`. -/
theorem add_comm_assoc (a b c : Histogram)
    (hab : axes_equal a.axes b.axes = true)
    (hbc : axes_equal b.axes c.axes = true) :
    Histogram.heq ((a.add b).1) ((b.add a).1) = true ∧
      Histogram.heq (((a.add b).1.add c).1) ((a.add ((b.add c).1)).1) = true := by
  have hab' : a.axes = b.axes := (axes_equal_iff _ _).mp hab
  have hbc' : b.axes = c.axes := (axes_equal_iff _ _).mp hbc
  have hba : axes_equal b.axes a.axes = true := (axes_equal_iff _ _).mpr hab'.symm
  have hac : axes_equal a.axes c.axes = true :=
    (axes_equal_iff _ _).mpr (hab'.trans hbc')
  have h1 : (a.add b).1 = ⟨a.axes, storageAdd a.storage b.storage⟩ := by
    rw [add_ok a b hab]
  have h2 : (b.add a).1 = ⟨b.axes, storageAdd b.storage a.storage⟩ := by
    rw [add_ok b a hba]
  constructor
  · rw [h1, h2]
    unfold Histogram.heq axes_equal
    simp [hab', storageAdd_comm a.storage b.storage]
  · have h3 : ((a.add b).1.add c).1
        = ⟨a.axes, storageAdd (storageAdd a.storage b.storage) c.storage⟩ := by
      rw [h1,
        add_ok ⟨a.axes, storageAdd a.storage b.storage⟩ c hac]
    have h4 : (b.add c).1 = ⟨b.axes, storageAdd b.storage c.storage⟩ := by
      rw [add_ok b c hbc]
    have h5 : (a.add ((b.add c).1)).1
        = ⟨a.axes, storageAdd a.storage (storageAdd b.storage c.storage)⟩ := by
      rw [h4,
        add_ok a ⟨b.axes, storageAdd b.storage c.storage⟩ hab]
    rw [h3, h5]
    unfold Histogram.heq axes_equal
    simp [storageAdd_assoc a.storage b.storage c.storage]

/-- Witness for `add_comm_assoc`: three copies of the example histogram,
filled zero, one and two times respectively. -/
theorem add_comm_assoc_witness :
    (axes_equal exHist.axes ((exHist.fill [1, 0]).1).axes = true ∧
        axes_equal ((exHist.fill [1, 0]).1).axes
          (((exHist.fill [1, 0]).1.fill [0, 1]).1).axes = true) ∧
      (Histogram.heq ((exHist.add ((exHist.fill [1, 0]).1)).1)
          (((exHist.fill [1, 0]).1.add exHist).1) = true ∧
        Histogram.heq
          (((exHist.add ((exHist.fill [1, 0]).1)).1.add
            (((exHist.fill [1, 0]).1.fill [0, 1]).1)).1)
          ((exHist.add ((((exHist.fill [1, 0]).1.add
            (((exHist.fill [1, 0]).1.fill [0, 1]).1)).1))).1) = true) :=
  ⟨⟨by decide, by decide⟩,
    add_comm_assoc exHist ((exHist.fill [1, 0]).1)
      (((exHist.fill [1, 0]).1.fill [0, 1]).1) (by decide) (by decide)⟩

/-! ### Scalar scaling, access errors, reset -/

/-- C8: scaling by the scalar `1` is the cellwise identity, and scaling by
a nonzero scalar `x` followed by division by `x` (multiplication by the
reciprocal) recovers the histogram cellwise — exactly, since the cells are
modelled with exact rationals, hence in particular within any floating
tolerance.  The binary operators build a new histogram: the one scaled is a
copy carrying the operand's axes, the operand itself being a read-only
input. -/
theorem scalar_identity (h : Histogram) (x : ℚ) (hx : x ≠ 0) :
    h.mulScalar 1 = h ∧
      (h.mulScalar x).divScalar x = h ∧
      (h.mulScalar x).axes = h.axes ∧
      (h.divScalar x).axes = h.axes := by
  refine ⟨?_, ?_, rfl, rfl⟩
  · show (⟨h.axes, h.storage.map (· * 1)⟩ : Histogram) = h
    have : h.storage.map (· * 1) = h.storage := by
      simp
    rw [this]
  · show (⟨h.axes, (h.storage.map (· * x)).map (· * (1 / x))⟩ : Histogram) = h
    have : (h.storage.map (· * x)).map (· * (1 / x)) = h.storage := by
      rw [List.map_map]
      have hone : ∀ c : ℚ, ((· * (1 / x)) ∘ (· * x)) c = c := by
        intro c
        show c * x * (1 / x) = c
        rw [mul_assoc, mul_one_div, div_self hx, mul_one]
      calc (h.storage.map ((· * (1 / x)) ∘ (· * x)))
          = h.storage.map id := List.map_congr_left (fun c _ => hone c)
        _ = h.storage := List.map_id h.storage
    rw [this]

/-- Witness for `scalar_identity`: the once-filled example histogram and
the scalar `2`. -/
theorem scalar_identity_witness :
    ((2 : ℚ) ≠ 0) ∧
      (((exHist.fill [1, 0]).1).mulScalar 1 = (exHist.fill [1, 0]).1 ∧
        (((exHist.fill [1, 0]).1).mulScalar 2).divScalar 2
          = (exHist.fill [1, 0]).1 ∧
        (((exHist.fill [1, 0]).1).mulScalar 2).axes
          = ((exHist.fill [1, 0]).1).axes ∧
        (((exHist.fill [1, 0]).1).divScalar 2).axes
          = ((exHist.fill [1, 0]).1).axes) :=
  ⟨by simp, scalar_identity ((exHist.fill [1, 0]).1) 2 (by simp)⟩

/-- C9: indexed access with a number of indices different from the rank
raises InvalidArgument, and indexed access with the right arity but some
axis's index outside that axis's valid extended range raises OutOfRange —
no clamping, no cell is returned in either case. -/
theorem access_errors (h : Histogram) (ts ts' : List Int)
    (hlen : ts.length ≠ h.rank)
    (hlen' : ts'.length = h.rank)
    (hoor : toBins h.axes ts' = none) :
    h.cellAt ts = Except.error HistError.invalidArgument ∧
      h.cellAt ts' = Except.error HistError.outOfRange := by
  unfold Histogram.rank at hlen hlen'
  constructor
  · unfold Histogram.cellAt
    rw [if_pos hlen]
  · unfold Histogram.cellAt
    rw [if_neg (by omega), hoor]

/-- Witness for `access_errors`: on the rank-2 example histogram, `at(0)`
has the wrong arity and `at(5, 0)` addresses index 5 on the first axis,
which equals its total bin count of 5 and is beyond its valid extended
range `-1..3`. -/
theorem access_errors_witness :
    (([(0 : Int)].length ≠ exHist.rank) ∧
        [(5 : Int), 0].length = exHist.rank ∧
        toBins exHist.axes [5, 0] = none) ∧
      (exHist.cellAt [0] = Except.error HistError.invalidArgument ∧
        exHist.cellAt [5, 0] = Except.error HistError.outOfRange) :=
  ⟨⟨by decide, by decide, by decide⟩,
    access_errors exHist [0] [5, 0] (by decide) (by decide) (by decide)⟩

theorem getD_replicate (n i : Nat) (hi : i < n) :
    (List.replicate n (0 : ℚ)).getD i 0 = 0 := by
  induction n generalizing i with
  | zero => simp at hi
  | succ m ih =>
    cases i with
    | zero => rfl
    | succ j =>
      show (List.replicate m (0 : ℚ)).getD j 0 = 0
      exact ih j (by omega)

/-- C10: `reset()` keeps the axes, the rank and the storage size — the bin
layout is untouched — and sets every cell back to the default value 0. -/
theorem reset_frame (h : Histogram) (i : Nat) (hi : i < h.storage.length) :
    h.reset.axes = h.axes ∧
      h.reset.rank = h.rank ∧
      h.reset.storage.length = h.storage.length ∧
      cellVal h.reset i = 0 := by
  refine ⟨rfl, rfl, ?_, ?_⟩
  · show (storageReset h.storage.length).length = h.storage.length
    unfold storageReset
    rw [List.length_replicate]
  · show (storageReset h.storage.length).getD i 0 = 0
    exact getD_replicate h.storage.length i hi

/-- Witness for `reset_frame`: resetting the once-filled example histogram
clears the filled cell at linear offset 4. -/
theorem reset_frame_witness :
    (4 < ((exHist.fill [1, 0]).1).storage.length) ∧
      (((exHist.fill [1, 0]).1).reset.axes = ((exHist.fill [1, 0]).1).axes ∧
        ((exHist.fill [1, 0]).1).reset.rank = ((exHist.fill [1, 0]).1).rank ∧
        ((exHist.fill [1, 0]).1).reset.storage.length
          = ((exHist.fill [1, 0]).1).storage.length ∧
        cellVal ((exHist.fill [1, 0]).1).reset 4 = 0) :=
  ⟨by decide, reset_frame ((exHist.fill [1, 0]).1) 4 (by decide)⟩

end BoostHistogram
